import Mathlib

/-!
Shallow embedding of `vimdoc.go` from the md2vim repository (a Markdown to
vim help-file renderer), together with theorems settling the frozen claims
about its specification.

Byte strings are modelled as `List Char`, one `Char` per byte, interpreted
as ASCII.  The Go standard-library routines the source calls
(`bytes.ToLower`, `bytes.ToUpper`, `bytes.Title`, `strings.Repeat`,
`strings.Split`, `path.Base`, `regexp` replacement for the one fixed
pattern used) are embedded at ASCII fidelity; all concrete inputs used in
witnesses and counterexamples are ASCII.
-/

namespace MdToVim

/-- ASCII embedding of Go `unicode.ToUpper` / `unicode.ToTitle` (these agree
on ASCII letters). -/
def asciiToUpper (c : Char) : Char :=
  if 'a' ≤ c ∧ c ≤ 'z' then Char.ofNat (c.toNat - 32) else c

/-- ASCII embedding of Go `unicode.ToLower`. -/
def asciiToLower (c : Char) : Char :=
  if 'A' ≤ c ∧ c ≤ 'Z' then Char.ofNat (c.toNat + 32) else c

/-- Embedding of Go `bytes.ToUpper` on ASCII bytes. -/
def bytesToUpper (s : List Char) : List Char := s.map asciiToUpper

/-- Embedding of Go `bytes.ToLower` on ASCII bytes. -/
def bytesToLower (s : List Char) : List Char := s.map asciiToLower

/-- Embedding of Go `strings.Repeat s n` (source only calls it with a
non-negative count). -/
def stringsRepeat (s : List Char) (n : Nat) : List Char :=
  (List.replicate n s).flatten

/-- Decimal rendering of a non-negative Go int, as `strconv.Itoa` /
`fmt.Sprintf "%d"` produce it. -/
def itoa (n : Nat) : List Char := (Nat.repr n).data

/-- The `heading` struct of vimdoc.go: rendered text bytes and nesting
level. -/
structure Heading where
  text : List Char
  level : Nat
deriving DecidableEq, Repr

/-- Flag bit `flagNoToc` from vimdoc.go (`1 << iota`). -/
def flagNoToc : Nat := 1

/-- Flag bit `flagNoRules` from vimdoc.go. -/
def flagNoRules : Nat := 2

/-- Flag bit `flagPascal` from vimdoc.go. -/
def flagPascal : Nat := 4

/-- The `vimDoc` renderer state of vimdoc.go.  `lists` is the stack of list
frames with the top at the head (Go appends frames at the slice's end and
always addresses the last element; head-as-top is the same abstract stack).
Each frame holds just the running item `index`, as in the Go `list`
struct.  `cols` and `tabs` are the column and indent widths (Go ints that
are non-negative in every run that does not panic inside
`strings.Repeat`).  `tocPos` is a Go int initialised to -1. -/
structure VimDoc where
  filename : List Char
  title : List Char
  desc : List Char
  cols : Nat
  tabs : Nat
  flags : Nat
  tocPos : Int
  lists : List Nat
  headings : List Heading
deriving DecidableEq, Repr

/-- Test of `v.flags & f != 0` as the Go source writes it. -/
def hasFlag (v : VimDoc) (f : Nat) : Bool := v.flags &&& f ≠ 0

/-- Embedding of `writeSplitText`: left text, fill padding, right text,
newline, appended to the buffer.  `padding` is computed in Go int
arithmetic and floored at 1 when non-positive. -/
def writeSplitText (v : VimDoc) (out left right : List Char)
    (repeat_ : List Char) (trim : Nat) : List Char :=
  let padding : Int := (v.cols : Int) - ((left.length : Int) + (right.length : Int)) + (trim : Int)
  let padding : Nat := if padding ≤ 0 then 1 else padding.toNat
  out ++ left ++ stringsRepeat repeat_ padding ++ right ++ ['\n']

/-- Embedding of `writeRule`: one full-width rule line. -/
def writeRule (v : VimDoc) (out : List Char) (repeat_ : List Char) : List Char :=
  out ++ stringsRepeat repeat_ v.cols ++ ['\n']

/-- Embedding of `writeIndent`: split the text on newlines, emit every
non-empty line indented by `tabs` spaces, the first line's indent reduced
by `trim` only when `tabs >= trim` (the Go condition `width >= trim`). -/
def writeIndent (v : VimDoc) (out : List Char) (text : List Char) (trim : Nat) : List Char :=
  let lines := text.splitOn '\n'
  out ++ (lines.enum.map fun p =>
    let width := if v.tabs ≥ trim ∧ p.1 = 0 then v.tabs - trim else v.tabs
    if p.2.length > 0 then List.replicate width ' ' ++ p.2 ++ ['\n'] else []).flatten

/-- The backward registry walk of `buildChapters`: `prior` is the list of
levels of the headings before the current one, nearest first (the Go loop
runs `i` from `index-1` down to `0`).  Counters are collected innermost
first, exactly as the Go slice `chapters` is filled. -/
def chapterWalk : List Nat → Nat → Nat → List Nat
  | [], _, siblings => [siblings]
  | l :: rest, level, siblings =>
    if l = level then chapterWalk rest level (siblings + 1)
    else if l < level then siblings :: chapterWalk rest l 1
    else chapterWalk rest level siblings

/-- Embedding of `buildChapters` for the heading at registry position
`index` (the Go code receives the heading pointer and recovers this index
by identity search; a failed search is `log.Fatal`, modelled as the empty
result, and never happens for a registered heading).  The collected
counters are rendered outermost first, each followed by a dot. -/
def buildChapters (v : VimDoc) (index : Nat) : List Char :=
  match v.headings.get? index with
  | none => []
  | some h =>
    let chapters := chapterWalk (((v.headings.take index).reverse).map Heading.level) h.level 1
    (chapters.reverse.map fun n => itoa n ++ ['.']).flatten

/-- ASCII branch of the Go `strings`/`bytes` package-private `isSeparator`
used by `bytes.Title` for word boundaries: everything except ASCII
alphanumerics and underscore is a separator. -/
def isGoSep (c : Char) : Bool :=
  ¬ (('0' ≤ c ∧ c ≤ '9') ∨ ('a' ≤ c ∧ c ≤ 'z') ∨ ('A' ≤ c ∧ c ≤ 'Z') ∨ c = '_')

/-- Worker of the `bytes.Title` embedding: `prevSep` records whether the
previous byte was a separator (initially true, Go seeds `prev` with a
space); a byte following a separator is title-cased, every other byte is
kept, and `prev` is always updated to the original byte. -/
def goTitleAux (prevSep : Bool) : List Char → List Char
  | [] => []
  | c :: rest =>
    (if prevSep then asciiToUpper c else c) :: goTitleAux (isGoSep c) rest

/-- Embedding of Go `bytes.Title` on ASCII bytes. -/
def goTitle (s : List Char) : List Char := goTitleAux true s

/-- Embedding of `buildHelpTag`: default mode lowercases and replaces
spaces with underscores; pascal mode applies `bytes.Title` and deletes
spaces; the result is `"<title>-<slug>"`. -/
def buildHelpTag (v : VimDoc) (text : List Char) : List Char :=
  let slug :=
    if ¬ hasFlag v flagPascal then
      (bytesToLower text).map fun c => if c = ' ' then '_' else c
    else
      (goTitle text).filter fun c => c ≠ ' '
  v.title ++ ['-'] ++ slug

/-- Embedding of the `Header` handler.  The parser's `text` closure appends
the rendered children (`childText`, bytes that do not depend on the buffer
contents) and reports success (`childOk`); on failure the buffer is
truncated back to the position before any rule was written.  On success the
child bytes are captured back out of the buffer, a heading is registered,
and the final heading line plus a blank line are emitted. -/
def headerH (v : VimDoc) (out childText : List Char) (childOk : Bool)
    (level : Nat) : VimDoc × List Char :=
  let out1 :=
    if ¬ hasFlag v flagNoRules then
      if level = 1 then writeRule v out "=".data
      else if level = 2 then writeRule v out "-".data
      else out
    else out
  let out2 := out1 ++ childText
  if ¬ childOk then (v, out2.take out.length)
  else
    let h : Heading := ⟨childText, level⟩
    let v' := { v with headings := v.headings ++ [h] }
    let tag := ['*'] ++ buildHelpTag v' h.text ++ ['*']
    let out4 := writeSplitText v' (out2.take out1.length) (bytesToUpper h.text) tag [' '] 2
    (v', out4 ++ ['\n'])

/-- The push half of the `List` handler: append a fresh frame with index 1. -/
def listPush (v : VimDoc) : VimDoc := { v with lists := 1 :: v.lists }

/-- The pop half of the `List` handler: drop the top frame.  Popping an
empty stack is a Go slice-bounds panic, modelled as `none`. -/
def listPop (v : VimDoc) : Option VimDoc :=
  match v.lists with
  | [] => none
  | _ :: rest => some { v with lists := rest }

/-- Embedding of the `ListItem` handler.  `text` is the already-rendered
item content; `ordered` and `endOfList` are the relevant bits of the
blackfriday flags word.  Reading the top list frame from an empty stack is
a Go index-out-of-range panic, modelled as `none`.  The trim passed to
`writeIndent` is `out.Len() - marker`, the number of marker bytes just
written. -/
def listItemH (v : VimDoc) (out text : List Char) (ordered endOfList : Bool) :
    Option (VimDoc × List Char) :=
  match v.lists with
  | [] => none
  | index :: rest =>
    let marker : List Char := if ordered then itoa index ++ ". ".data else "* ".data
    let v' := if ordered then { v with lists := (index + 1) :: rest } else v
    let out1 := out ++ marker
    let out2 := writeIndent v' out1 text (out1.length - out.length)
    some (v', if endOfList then out2 ++ ['\n'] else out2)

/-- Embedding of `writeToc`: one split line per registered heading, with
indentation `(level-1)*tabs`, the chapter prefix, the heading text, dot
padding, and the pipe-wrapped help tag, all with trim 2.  In the Go code
`buildChapters` receives the heading pointer and recovers its registry
index; here the index is carried directly by the iteration. -/
def writeToc (v : VimDoc) (out : List Char) : List Char :=
  v.headings.enum.foldl
    (fun acc p =>
      let title := List.replicate ((p.2.level - 1) * v.tabs) ' ' ++
        buildChapters v p.1 ++ [' '] ++ p.2.text
      let link := ['|'] ++ buildHelpTag v p.2.text ++ ['|']
      writeSplitText v acc title link ['.'] 2)
    out

/-- The bytes of the synthesized Contents section as `DocumentFooter`
builds them into `temp` between the two body halves: a `=` rule, the
CONTENTS heading line, a blank line, the TOC entries, a blank line. -/
def tocSection (v : VimDoc) : List Char :=
  let contents := "Contents".data
  let tag := ['*'] ++ buildHelpTag v contents ++ ['*']
  let line := writeSplitText v (writeRule v [] "=".data) (bytesToUpper contents) tag [' '] 2
  writeToc v (line ++ ['\n']) ++ ['\n']

/-- Embedding of `DocumentHeader`: the filename/description split line (or
the bare filename line), a blank line, and the TOC insertion offset
recorded at the resulting buffer length. -/
def documentHeader (v : VimDoc) (out : List Char) : VimDoc × List Char :=
  let out1 :=
    if 0 < v.desc.length then
      writeSplitText v out v.filename v.desc [' '] 0
    else out ++ v.filename ++ ['\n']
  let out2 := out1 ++ ['\n']
  ({ v with tocPos := (out2.length : Int) }, out2)

/-- The Go regexp `\s` character class (RE2 Perl class): tab, newline, form
feed, carriage return, space. -/
def isGoSpace (c : Char) : Bool :=
  c = '\t' ∨ c = '\n' ∨ c = '\x0c' ∨ c = '\r' ∨ c = ' '

/-- A fence delimiter character, the `[<>]` class of `fixupCodeTags`. -/
def isDelim (c : Char) : Bool := c = '<' ∨ c = '>'

/-- One anchored attempt of the regex `(?m)^\s*([<>])$` at a line-start
position whose remaining input is `s`.  Since a delimiter is never
whitespace, the greedy `\s*` must consume exactly the whitespace run (which
may span newlines) in any successful match, so backtracking is vacuous:
the attempt succeeds iff the first non-whitespace byte is `<` or `>`
immediately followed by a line end (`$` = end of text or before `\n`).
Returns the captured delimiter and the input after the match. -/
def tryMatch (s : List Char) : Option (Char × List Char) :=
  match s.dropWhile isGoSpace with
  | [] => none
  | d :: rest =>
    if isDelim d ∧ (rest = [] ∨ rest.head? = some '\n') then some (d, rest) else none

/-- Embedding of `regexp.ReplaceAll` for the fixed pattern
`(?m)^\s*([<>])$` with replacement `$1`: scan left to right; at every
line-start position attempt the anchored match, emit the captured
delimiter in place of a successful match and resume after it, otherwise
copy the byte.  `^` matches at the start of the text and after each
newline.  The recursion is driven by a fuel counter bounding the remaining
input length: every step consumes at least one byte (a successful match
consumes its whole non-empty matched region), so with fuel at least the
input length the exhaustion branch is never taken. -/
def fixupScanF : Nat → Bool → List Char → List Char
  | _, _, [] => []
  | 0, _, s => s
  | fuel + 1, atStart, c :: rest =>
    if atStart then
      match tryMatch (c :: rest) with
      | some (d, rest') => d :: fixupScanF fuel false rest'
      | none => c :: fixupScanF fuel (c = '\n') rest
    else c :: fixupScanF fuel (c = '\n') rest

/-- The scan at its natural fuel. -/
def fixupScan (atStart : Bool) (s : List Char) : List Char :=
  fixupScanF s.length atStart s

/-- Embedding of `fixupCodeTags` (the receiver is unused by the Go
method). -/
def fixupCodeTags (input : List Char) : List Char := fixupScan true input

/-- Embedding of `DocumentFooter`: when an offset was recorded and the TOC
is not suppressed, rebuild the text as prefix ++ Contents section ++
suffix; in every case the result is passed through `fixupCodeTags`. -/
def documentFooter (v : VimDoc) (out : List Char) : List Char :=
  if 0 < v.tocPos ∧ ¬ hasFlag v flagNoToc then
    fixupCodeTags (out.take v.tocPos.toNat ++ tocSection v ++ out.drop v.tocPos.toNat)
  else fixupCodeTags out

/-- Embedding of Go `path.Base`: "." for the empty path, trailing slashes
stripped, "/" if only slashes remain, else the part after the last
slash. -/
def pathBase (s : List Char) : List Char :=
  if s = [] then ['.']
  else
    let r := s.reverse.dropWhile (· = '/')
    if r = [] then ['/']
    else (r.takeWhile (· ≠ '/')).reverse

/-- Embedding of the construction in `VimDocRenderer`: the filename is its
own base name; the title is the part before the last dot, lowercased only
in non-pascal mode — when the base name has no dot the title is the base
name unchanged in both modes.  The session starts with `tocPos = -1` and
empty list stack and heading registry. -/
def vimDocRenderer (filename desc : List Char) (cols tabs flags : Nat) : VimDoc :=
  let fname := pathBase filename
  let title :=
    if '.' ∈ fname then
      let t := ((fname.reverse.dropWhile (· ≠ '.')).drop 1).reverse
      if flags &&& flagPascal = 0 then bytesToLower t else t
    else fname
  { filename := fname, title := title, desc := desc, cols := cols,
    tabs := tabs, flags := flags, tocPos := -1, lists := [], headings := [] }

mutual

/-- A parsed list element as the parser hands it to the renderer: the
ordered flag and the item sequence. -/
inductive MList where
  | mk : Bool → MItems → MList

/-- A sequence of list items. -/
inductive MItems where
  | nil : MItems
  | cons : MItem → MItems → MItems

/-- A list item: its own already-rendered inline bytes followed by the
lists nested inside it (the parser renders an item's children, including
nested lists, into the item's work buffer before invoking `ListItem`). -/
inductive MItem where
  | mk : List Char → MLists → MItem

/-- A sequence of lists nested inside one item. -/
inductive MLists where
  | lnil : MLists
  | lcons : MList → MLists → MLists

end

/-- Whether an item sequence is empty: the parser sets the end-of-list flag
exactly on the final item of a list. -/
def MItems.isNil : MItems → Bool
  | .nil => true
  | .cons _ _ => false

mutual

/-- Traversal of one `List` element: the handler pushes a fresh frame with
index 1, the children (the items) are rendered, and the frame is popped. -/
def renderMList (v : VimDoc) (out : List Char) : MList → Option (VimDoc × List Char)
  | .mk ordered items => do
    let r ← renderMItems (listPush v) out ordered items
    let v' ← listPop r.1
    pure (v', r.2)
termination_by structural l => l

/-- Traversal of an item sequence, in document order. -/
def renderMItems (v : VimDoc) (out : List Char) (ordered : Bool) :
    MItems → Option (VimDoc × List Char)
  | .nil => some (v, out)
  | .cons it rest => do
    let r ← renderMItem v out ordered rest.isNil it
    renderMItems r.1 r.2 ordered rest
termination_by structural its => its

/-- Traversal of one item: the nested lists are rendered first (into the
item's own work buffer, starting empty), then the `ListItem` handler is
invoked with the item's complete rendered content. -/
def renderMItem (v : VimDoc) (out : List Char) (ordered isLast : Bool) :
    MItem → Option (VimDoc × List Char)
  | .mk own nested => do
    let r ← renderMLists v [] nested
    listItemH r.1 out (own ++ r.2) ordered isLast
termination_by structural it => it

/-- Traversal of the lists nested inside one item. -/
def renderMLists (v : VimDoc) (out : List Char) : MLists → Option (VimDoc × List Char)
  | .lnil => some (v, out)
  | .lcons l ls => do
    let r ← renderMList v out l
    renderMLists r.1 r.2 ls
termination_by structural ls => ls

end

/-- Claim-side reading of the indent-block primitive, translated from the
spec's words for C6: every non-empty line indented by the indent width,
the first line's indent always reduced by the trim. -/
def writeIndentClaim (v : VimDoc) (out text : List Char) (trim : Nat) : List Char :=
  let lines := text.splitOn '\n'
  out ++ (lines.enum.map fun p =>
    let width := if p.1 = 0 then v.tabs - trim else v.tabs
    if p.2.length > 0 then List.replicate width ' ' ++ p.2 ++ ['\n'] else []).flatten

/-- Claim-side reading of the cleanup pass, translated from the spec's
words for C7: rewrite exactly those lines whose only non-whitespace
content is a single fence delimiter to the bare delimiter, leave every
other line unchanged. -/
def fixLineClaim (l : List Char) : List Char :=
  match l.filter fun c => ¬ isGoSpace c with
  | [d] => if isDelim d then [d] else l
  | _ => l

/-- Claim-side whole-text cleanup for C7: the per-line rewrite applied to
every line. -/
def fixupClaim (t : List Char) : List Char :=
  List.intercalate ['\n'] ((t.splitOn '\n').map fixLineClaim)

/-- Claim-side reading of the capitalized-tag slug for C2: each
space-delimited word has its first character capitalized (the rest kept),
then all spaces are removed. -/
def claimPascalSlug (text : List Char) : List Char :=
  ((text.splitOn ' ').map fun w =>
    match w with
    | [] => []
    | c :: r => asciiToUpper c :: r).flatten

/-- Spec-side reading of the default slug for C2: the heading text
lowercased with every space replaced by an underscore. -/
def defaultSlugSpec (text : List Char) : List Char :=
  (text.map asciiToLower).map fun c => if c = ' ' then '_' else c

/-- Claim-side reading of the derived title for C9: base filename with its
extension removed, lowercased exactly when capitalized-tag mode is off. -/
def claimTitle (filename : List Char) (pascal : Bool) : List Char :=
  let base := pathBase filename
  let rev := base.reverse
  let noExt := if '.' ∈ base then ((rev.dropWhile (· ≠ '.')).drop 1).reverse else base
  if pascal then noExt else bytesToLower noExt

/-- Whether position `i` of a text scanned by `goTitleAux prev` is at a
word start: position 0 inherits `prev`, and any later position is at a
word start iff the previous character is a separator. -/
def sepAt (prev : Bool) (s : List Char) : Nat → Bool
  | 0 => prev
  | i + 1 =>
    match s.get? i with
    | some p => isGoSep p
    | none => true

/-- Lines of a text, first line then the lines after each newline; mirrors
splitting on the newline character (a text with no newline is one line,
every newline starts a further line).  The second match alternative is
unreachable: the recursive result is never empty. -/
def linesOf : List Char → List (List Char)
  | [] => [[]]
  | c :: rest =>
    if c = '\n' then [] :: linesOf rest
    else
      match linesOf rest with
      | [] => [[c]]
      | l :: ls => (c :: l) :: ls

/-- A line consisting solely of whitespace (possibly empty). -/
def wsOnly (l : List Char) : Bool := l.all isGoSpace

/-- A line that is optional whitespace followed by a single fence delimiter
at end of line — exactly the lines the regex rewrites when anchored inside
one line. -/
def wsDelim (l : List Char) : Bool :=
  match l.dropWhile isGoSpace with
  | [d] => isDelim d
  | _ => false

/-- Per-line action of the cleanup pass on such a line: the bare delimiter;
other lines are kept. -/
def fixLineGo (l : List Char) : List Char :=
  match l.dropWhile isGoSpace with
  | [d] => if isDelim d then [d] else l
  | _ => l

/-- Spec-side removal of a filename's extension: everything before the last
dot, computed by a left-to-right scan (the code computes it by a
reverse-and-drop scan). -/
def stripExtSpec : List Char → List Char
  | [] => []
  | c :: rest => if '.' ∈ rest then c :: stripExtSpec rest else []

/-- Join a list of lines with single newlines. -/
def unlines : List (List Char) → List Char
  | [] => []
  | [l] => l
  | l :: rest => l ++ '\n' :: unlines rest

/-- Adjacency condition on a list of lines: no whitespace-only (or empty)
line is immediately followed by a whitespace-only line or by a
whitespace-then-delimiter line.  Under this condition the cleanup regex
never matches across a newline. -/
def chainOk : List (List Char) → Bool
  | [] => true
  | [_] => true
  | a :: b :: rest => (!wsOnly a || (!wsOnly b && !wsDelim b)) && chainOk (b :: rest)

/-- The four-heading registry of the C1 example. -/
def chapterReg : List Heading :=
  [⟨"A".data, 1⟩, ⟨"B".data, 2⟩, ⟨"C".data, 2⟩, ⟨"D".data, 1⟩]

/-- The C8 example: a top-level ordered list of two items, the first item
containing a nested unordered list of two items. -/
def exList : MList :=
  .mk true (.cons (.mk "A\n".data
      (.lcons (.mk false (.cons (.mk "x\n".data .lnil)
        (.cons (.mk "y\n".data .lnil) .nil))) .lnil))
    (.cons (.mk "B\n".data .lnil) .nil))

/-- Sample renderer session used by concrete instances: given title,
column width, indent width, flags and registry. -/
def mkDoc (title : List Char) (cols tabs flags : Nat) (hs : List Heading) : VimDoc :=
  { filename := "f".data, title := title, desc := [], cols := cols,
    tabs := tabs, flags := flags, tocPos := -1, lists := [], headings := hs }

/-- Concrete session for the C4 instance: one registered heading and a TOC
offset recorded right after the two-byte prologue. -/
def c4V : VimDoc := { mkDoc "t".data 20 2 0 [⟨"A".data, 1⟩] with tocPos := 2 }

/-- Concrete body buffer for the C4 instance. -/
def c4Buf : List Char := "a\nbody\n".data

/-- Session for the C4 counterexample: columns 2, one registered heading,
TOC offset 3 as `DocumentHeader` records it after the one-byte filename
line and the blank line. -/
def c4W : VimDoc := { mkDoc "f".data 2 4 0 [⟨"A".data, 1⟩] with tocPos := 3 }

/-- Body buffer for the C4 counterexample: the prologue ("f" line, blank
line) followed by a document whose first block is a code block (bare fence
lines around an indented payload) and then the registered heading's
block — an ordinary document whose body begins with a fence. -/
def c4WBuf : List Char := "f\n\n>\n    x\n<\n\n==\nA *f-a*\n\n".data

/-- C5: the split-line primitive emits the left text, exactly
`max 1 (cols - (leftLen + rightLen) + trim)` copies of the fill, the right
text and a newline; the number of fill copies is always at least one, in
particular whenever the combined text length exceeds the column width. -/
theorem claim_C5_split_line (v : VimDoc) (out left right repeat_ : List Char) (trim : Nat) :
    writeSplitText v out left right repeat_ trim =
      out ++ left ++
        stringsRepeat repeat_
          (max 1 ((v.cols : Int) - ((left.length : Int) + (right.length : Int)) + (trim : Int))).toNat ++
        right ++ ['\n'] ∧
    1 ≤ (max 1 ((v.cols : Int) - ((left.length : Int) + (right.length : Int)) + (trim : Int))).toNat := by
  have hcnt : ∀ p : Int, (if p ≤ 0 then (1 : Nat) else p.toNat) = (max 1 p).toNat := by
    intro p
    split
    · rw [max_eq_left (by omega)]
      rfl
    · rw [max_eq_right (by omega)]
  constructor
  · simp only [writeSplitText, hcnt]
  · rw [← hcnt]
    split <;> omega

/-- C6 counterexample: with indent width 4 and trim 5 (trim exceeding the
indent width), the code keeps the full four-space indent on the first line
instead of reducing it by the trim as the claim states for every trim
amount. -/
theorem claim_C6_counterexample :
    writeIndent (mkDoc "t".data 80 4 0 []) [] "x".data 5 ≠
      writeIndentClaim (mkDoc "t".data 80 4 0 []) [] "x".data 5 := by decide

/-- C6 (amended): the indent-block primitive indents every non-empty line
by the indent width and drops empty lines; the first line's indent is
reduced by the trim exactly when the trim does not exceed the indent
width, and otherwise the first line keeps the full indent (the behaviour
with trim 0). -/
theorem claim_C6_indent_block (v : VimDoc) (out text : List Char) (trim : Nat) :
    (trim ≤ v.tabs → writeIndent v out text trim = writeIndentClaim v out text trim) ∧
    (v.tabs < trim → writeIndent v out text trim = writeIndent v out text 0) := by
  constructor
  · intro hle
    simp only [writeIndent, writeIndentClaim]
    congr 2
    apply List.map_congr_left
    intro p _
    have hw : (if v.tabs ≥ trim ∧ p.1 = 0 then v.tabs - trim else v.tabs) =
        (if p.1 = 0 then v.tabs - trim else v.tabs) := by
      by_cases hp : p.1 = 0
      · rw [if_pos ⟨hle, hp⟩, if_pos hp]
      · rw [if_neg (by rintro ⟨-, h⟩; exact hp h), if_neg hp]
    rw [hw]
  · intro hlt
    simp only [writeIndent]
    congr 2
    apply List.map_congr_left
    intro p _
    have hw : (if v.tabs ≥ trim ∧ p.1 = 0 then v.tabs - trim else v.tabs) =
        (if v.tabs ≥ 0 ∧ p.1 = 0 then v.tabs - 0 else v.tabs) := by
      by_cases hp : p.1 = 0
      · rw [if_neg (by rintro ⟨h1, -⟩; omega), if_pos ⟨Nat.zero_le _, hp⟩]
        omega
      · rw [if_neg (by rintro ⟨-, h⟩; exact hp h), if_neg (by rintro ⟨-, h⟩; exact hp h)]
    rw [hw]

/-- C6 witness: a concrete application of both halves of the amended
indent-block statement. -/
theorem claim_C6_indent_block_witness :
    (2 ≤ (mkDoc "t".data 80 4 0 []).tabs ∧
      writeIndent (mkDoc "t".data 80 4 0 []) [] "a\n\nb".data 2 =
        writeIndentClaim (mkDoc "t".data 80 4 0 []) [] "a\n\nb".data 2) ∧
    ((mkDoc "t".data 80 4 0 []).tabs < 9 ∧
      writeIndent (mkDoc "t".data 80 4 0 []) [] "a".data 9 =
        writeIndent (mkDoc "t".data 80 4 0 []) [] "a".data 0) :=
  ⟨⟨by decide, (claim_C6_indent_block (mkDoc "t".data 80 4 0 []) [] "a\n\nb".data 2).1 (by decide)⟩,
   ⟨by decide, (claim_C6_indent_block (mkDoc "t".data 80 4 0 []) [] "a".data 9).2 (by decide)⟩⟩

/-- C1: the backward walk counts same-level siblings (schematically: over
any run of same-level predecessors the collected counter is the run length
plus the starting count), and on the registry [L1 A, L2 B, L2 C, L1 D] the
four headings get chapter prefixes 1., 1.1., 1.2., 2. respectively. -/
theorem claim_C1_chapter_numbers :
    (∀ (prior : List Nat) (L s : Nat), (∀ l ∈ prior, l = L) →
      chapterWalk prior L s = [s + prior.length]) ∧
    (buildChapters (mkDoc "t".data 80 4 0 chapterReg) 0 = "1.".data ∧
     buildChapters (mkDoc "t".data 80 4 0 chapterReg) 1 = "1.1.".data ∧
     buildChapters (mkDoc "t".data 80 4 0 chapterReg) 2 = "1.2.".data ∧
     buildChapters (mkDoc "t".data 80 4 0 chapterReg) 3 = "2.".data) := by
  constructor
  · intro prior
    induction prior with
    | nil => intro L s _; simp [chapterWalk]
    | cons a t ih =>
      intro L s h
      have ha : a = L := h a (List.mem_cons_self a t)
      subst ha
      have ht : ∀ l ∈ t, l = a := fun l hl => h l (List.mem_cons_of_mem a hl)
      simp only [chapterWalk, if_pos rfl]
      have harr : s + (a :: t).length = (s + 1) + t.length := by
        simp only [List.length_cons]
        omega
      rw [harr]
      exact ih a (s + 1) ht
  · exact ⟨by decide, by decide, by decide, by decide⟩

/-- C1 witness: the sibling-counting conjunct applied at a concrete run of
same-level predecessors, and one of the concrete chapter prefixes. -/
theorem claim_C1_chapter_numbers_witness :
    ((∀ l ∈ [2, 2], l = 2) ∧ chapterWalk [2, 2] 2 1 = [3]) ∧
    buildChapters (mkDoc "t".data 80 4 0 chapterReg) 2 = "1.2.".data :=
  ⟨⟨by decide, by simpa using claim_C1_chapter_numbers.1 [2, 2] 2 1 (by decide)⟩,
   claim_C1_chapter_numbers.2.2.2.1⟩

/-- C3 counterexample: a heading invocation whose children append zero
bytes but whose callback reports success does not roll back — the heading
line (and rule) are emitted and an empty-text heading is registered, so
the buffer is not byte-identical to the input buffer. -/
theorem claim_C3_counterexample :
    (headerH (mkDoc "t".data 5 4 0 []) [] [] true 1).2 ≠ [] ∧
    (headerH (mkDoc "t".data 5 4 0 []) [] [] true 1).1.headings ≠ [] := by decide

/-- C3 (amended): the heading handler rolls back exactly when the children
callback reports failure; in that case the output buffer is byte-identical
to the buffer before the invocation — any rule line already written for
level 1 or 2 included — and no heading is registered. -/
theorem claim_C3_header_rollback (v : VimDoc) (out childText : List Char) (level : Nat) :
    headerH v out childText false level = (v, out) := by
  simp only [headerH]
  rw [if_pos (show ¬ (false = true) by simp)]
  have hE : ∃ E : List Char,
      (if ¬ hasFlag v flagNoRules then
        if level = 1 then writeRule v out "=".data
        else if level = 2 then writeRule v out "-".data else out
       else out) = out ++ E := by
    unfold writeRule
    split
    · split
      · exact ⟨_, by rw [List.append_assoc]⟩
      · split
        · exact ⟨_, by rw [List.append_assoc]⟩
        · exact ⟨[], (List.append_nil out).symm⟩
    · exact ⟨[], (List.append_nil out).symm⟩
  obtain ⟨E, hEq⟩ := hE
  rw [hEq, List.append_assoc, List.take_left]

theorem stripExt_eq (s : List Char) (h : '.' ∈ s) :
    ((s.reverse.dropWhile (· ≠ '.')).drop 1).reverse = stripExtSpec s := by
  induction s with
  | nil => cases h
  | cons c rest ih =>
    by_cases hr : '.' ∈ rest
    · have hne : rest.reverse.dropWhile (· ≠ '.') ≠ [] := by
        rw [Ne, List.dropWhile_eq_nil_iff]
        push_neg
        exact ⟨'.', by simpa using hr, by simp⟩
      have hhead : (rest.reverse.dropWhile (· ≠ '.')).head hne = '.' := by
        have := List.head_dropWhile_not (fun x => x ≠ '.') rest.reverse hne
        simpa using this
      obtain ⟨w, hw⟩ : ∃ w, rest.reverse.dropWhile (· ≠ '.') = '.' :: w := by
        rcases hd : rest.reverse.dropWhile (· ≠ '.') with _ | ⟨x, w⟩
        · exact absurd hd hne
        · refine ⟨w, ?_⟩
          have h9 := List.head?_dropWhile_not (fun x => decide (x ≠ '.')) rest.reverse
          rw [hd] at h9
          have hx : x = '.' := by simpa using h9
          rw [hx]
      have happ : (c :: rest).reverse.dropWhile (· ≠ '.') =
          rest.reverse.dropWhile (· ≠ '.') ++ [c] := by
        rw [List.reverse_cons, List.dropWhile_append, if_neg (by rw [hw]; simp)]
      have hspec : stripExtSpec (c :: rest) = c :: stripExtSpec rest := by
        simp [stripExtSpec, hr]
      rw [happ, hw, hspec, ← ih hr, hw]
      simp
    · have hc : c = '.' := by
        rcases List.mem_cons.mp h with h1 | h2
        · exact h1.symm
        · exact absurd h2 hr
      subst hc
      have hall : rest.reverse.dropWhile (· ≠ '.') = [] := by
        rw [List.dropWhile_eq_nil_iff]
        intro x hx
        simp only [decide_eq_true_eq]
        intro hx'
        subst hx'
        exact hr (List.mem_reverse.mp hx)
      have hspec : stripExtSpec ('.' :: rest) = [] := by
        simp [stripExtSpec, hr]
      rw [hspec, List.reverse_cons, List.dropWhile_append, if_pos (by rw [hall]; rfl)]
      simp

/-- C9 counterexample: a source filename with no extension ("README") is
kept as-is by the code in default mode, while the claim's rule (base name
minus extension, lowercased in default mode) yields "readme". -/
theorem claim_C9_counterexample :
    (vimDocRenderer "README".data [] 80 4 0).title ≠ claimTitle "README".data false := by
  decide

/-- C9 (amended): when the base filename contains a dot, the derived title
is the base name with its extension removed, lowercased exactly when
capitalized-tag mode is off; when the base filename contains no dot, the
derived title is the base name unchanged in both modes. -/
theorem claim_C9_derived_title (filename desc : List Char) (cols tabs flags : Nat) :
    ('.' ∈ pathBase filename →
      (vimDocRenderer filename desc cols tabs flags).title =
        if flags &&& flagPascal = 0 then bytesToLower (stripExtSpec (pathBase filename))
        else stripExtSpec (pathBase filename)) ∧
    ('.' ∉ pathBase filename →
      (vimDocRenderer filename desc cols tabs flags).title = pathBase filename) := by
  constructor
  · intro h
    simp only [vimDocRenderer, if_pos h]
    rw [stripExt_eq _ h]
  · intro h
    simp only [vimDocRenderer, if_neg h]

/-- C9 witness: the amended rule applied at a filename with an extension
(in both modes) and at a filename without one. -/
theorem claim_C9_derived_title_witness :
    ('.' ∈ pathBase "docs/Foo.md".data ∧
      (vimDocRenderer "docs/Foo.md".data [] 80 4 0).title =
        bytesToLower (stripExtSpec (pathBase "docs/Foo.md".data))) ∧
    ('.' ∉ pathBase "README".data ∧
      (vimDocRenderer "README".data [] 80 4 4).title = pathBase "README".data) :=
  ⟨⟨by decide, by
      have := (claim_C9_derived_title "docs/Foo.md".data [] 80 4 0).1 (by decide)
      simpa using this⟩,
   ⟨by decide, (claim_C9_derived_title "README".data [] 80 4 4).2 (by decide)⟩⟩

theorem goTitleAux_length (prev : Bool) (s : List Char) :
    (goTitleAux prev s).length = s.length := by
  induction s generalizing prev with
  | nil => rfl
  | cons c rest ih => simp [goTitleAux, ih]

theorem sepAt_cons (prev : Bool) (c : Char) (rest : List Char) (j : Nat) :
    sepAt prev (c :: rest) (j + 1) = sepAt (isGoSep c) rest j := by
  cases j with
  | zero => simp [sepAt]
  | succ k => simp [sepAt]

theorem goTitleAux_get? (prev : Bool) (s : List Char) (i : Nat) :
    (goTitleAux prev s).get? i =
      (s.get? i).map fun c => if sepAt prev s i then asciiToUpper c else c := by
  induction s generalizing prev i with
  | nil => simp [goTitleAux]
  | cons c rest ih =>
    cases i with
    | zero => simp [goTitleAux, sepAt]
    | succ j =>
      simp only [goTitleAux, List.get?_cons_succ, sepAt_cons]
      exact ih (isGoSep c) j

/-- C2 counterexample: with the title bytes "rigellians" the
capitalized-mode tag keeps the title verbatim, so it is not the claimed
"Rigellians-HowToCookForFortyHumans"; and the capitalized slug capitalizes
after any non-alphanumeric byte, not only after spaces, so "a-b" yields
"A-B" where the claim's space-delimited rule yields "A-b". -/
theorem claim_C2_counterexample :
    buildHelpTag (mkDoc "rigellians".data 80 4 flagPascal []) "How To Cook For Forty Humans".data ≠
      "Rigellians-HowToCookForFortyHumans".data ∧
    buildHelpTag (mkDoc "t".data 80 4 flagPascal []) "a-b".data ≠
      "t".data ++ ['-'] ++ claimPascalSlug "a-b".data :=
  ⟨by decide, by decide⟩

/-- C2 (amended): the help tag is `"<title>-<slug>"` with the title used
verbatim; the default slug is the text lowercased with spaces replaced by
underscores; the capitalized-mode slug applies the title-casing pass —
which preserves the length and upper-cases a character exactly at a word
start, where a word starts at position 0 or after any non-alphanumeric,
non-underscore byte, not only after a space, keeping every other
character — and then removes spaces; the example tags hold with the title
as the renderer derives it from the source filename in the corresponding
mode ("rigellians" from "rigellians.txt" in default mode, "Rigellians"
from "Rigellians.txt" in capitalized mode). -/
theorem claim_C2_help_tag (v : VimDoc) (text : List Char) :
    (¬ hasFlag v flagPascal → buildHelpTag v text = v.title ++ ['-'] ++ defaultSlugSpec text) ∧
    (hasFlag v flagPascal →
      buildHelpTag v text = v.title ++ ['-'] ++ ((goTitle text).filter fun c => c ≠ ' ') ∧
      (goTitle text).length = text.length ∧
      (∀ i, (goTitle text).get? i =
        (text.get? i).map fun c => if sepAt true text i then asciiToUpper c else c)) ∧
    ((vimDocRenderer "rigellians.txt".data [] 80 4 0).title = "rigellians".data ∧
      buildHelpTag (mkDoc "rigellians".data 80 4 0 []) "How To Cook For Forty Humans".data =
        "rigellians-how_to_cook_for_forty_humans".data) ∧
    ((vimDocRenderer "Rigellians.txt".data [] 80 4 flagPascal).title = "Rigellians".data ∧
      buildHelpTag (mkDoc "Rigellians".data 80 4 flagPascal []) "How To Cook For Forty Humans".data =
        "Rigellians-HowToCookForFortyHumans".data) := by
  refine ⟨?_, ?_, ⟨by decide, by decide⟩, ⟨by decide, by decide⟩⟩
  · intro h
    simp only [buildHelpTag, if_pos h, defaultSlugSpec, bytesToLower]
  · intro h
    exact ⟨by simp only [buildHelpTag, if_neg (not_not_intro h)],
      goTitleAux_length true text, fun i => goTitleAux_get? true text i⟩

/-- C2 witness: both mode branches applied at concrete states. -/
theorem claim_C2_help_tag_witness :
    (¬ hasFlag (mkDoc "rigellians".data 80 4 0 []) flagPascal ∧
      buildHelpTag (mkDoc "rigellians".data 80 4 0 []) "Hi There".data =
        "rigellians".data ++ ['-'] ++ defaultSlugSpec "Hi There".data) ∧
    (hasFlag (mkDoc "t".data 80 4 flagPascal []) flagPascal ∧
      buildHelpTag (mkDoc "t".data 80 4 flagPascal []) "Hi There".data =
        "t".data ++ ['-'] ++ ((goTitle "Hi There".data).filter fun c => c ≠ ' ')) :=
  ⟨⟨by decide, (claim_C2_help_tag (mkDoc "rigellians".data 80 4 0 []) "Hi There".data).1 (by decide)⟩,
   ⟨by decide, ((claim_C2_help_tag (mkDoc "t".data 80 4 flagPascal []) "Hi There".data).2.1 (by decide)).1⟩⟩

/-- C10: in capitalized-tag mode the title-casing pass preserves the text
length and maps each character to its upper-case form exactly at word
starts (position 0 or any position after a separator byte) while keeping
every other character unchanged — so an already-uppercase word stays
uppercase, and "HTTP API" slugs to "HTTPAPI". -/
theorem claim_C10_pascal_word_casing (text : List Char)
    (h : ∀ c ∈ text, c.toNat < 128) :
    (goTitle text).length = text.length ∧
    (∀ i, (goTitle text).get? i =
      (text.get? i).map fun c => if sepAt true text i then asciiToUpper c else c) ∧
    buildHelpTag (mkDoc "t".data 80 4 flagPascal []) "HTTP API".data = "t-HTTPAPI".data :=
  ⟨goTitleAux_length true text, fun i => goTitleAux_get? true text i, by decide⟩

/-- C10 witness: the characterization applied at the "HTTP API" example. -/
theorem claim_C10_pascal_word_casing_witness :
    (∀ c ∈ "HTTP API".data, c.toNat < 128) ∧
    (goTitle "HTTP API".data).length = "HTTP API".data.length ∧
    (goTitle "HTTP API".data).get? 1 =
      ("HTTP API".data.get? 1).map
        (fun c => if sepAt true "HTTP API".data 1 then asciiToUpper c else c) :=
  ⟨by decide, (claim_C10_pascal_word_casing "HTTP API".data (by decide)).1,
   (claim_C10_pascal_word_casing "HTTP API".data (by decide)).2.1 1⟩

mutual

theorem renderMList_ok (l : MList) (v : VimDoc) (out : List Char) :
    ∃ o, renderMList v out l = some (v, o) :=
  match l with
  | .mk ordered items => by
    obtain ⟨j, o, heq⟩ :=
      renderMItems_ok items (listPush v) out ordered 1 v.lists rfl
    refine ⟨o, ?_⟩
    rw [renderMList, heq]
    rfl

theorem renderMItems_ok (its : MItems) (v : VimDoc) (out : List Char) (ordered : Bool)
    (i : Nat) (rest : List Nat) (h : v.lists = i :: rest) :
    ∃ j o, renderMItems v out ordered its = some ({ v with lists := j :: rest }, o) :=
  match its with
  | .nil => ⟨i, out, by rw [renderMItems, ← h]⟩
  | .cons it more => by
    obtain ⟨j₁, o₁, h₁⟩ := renderMItem_ok it v out ordered more.isNil i rest h
    obtain ⟨j₂, o₂, h₂⟩ :=
      renderMItems_ok more { v with lists := j₁ :: rest } o₁ ordered j₁ rest rfl
    exact ⟨j₂, o₂, by rw [renderMItems, h₁]; simpa using h₂⟩

theorem renderMItem_ok (it : MItem) (v : VimDoc) (out : List Char) (ordered isLast : Bool)
    (i : Nat) (rest : List Nat) (h : v.lists = i :: rest) :
    ∃ j o, renderMItem v out ordered isLast it = some ({ v with lists := j :: rest }, o) :=
  match it with
  | .mk own nested => by
    obtain ⟨o₁, h₁⟩ := renderMLists_ok nested v []
    rw [renderMItem, h₁, Option.bind_eq_bind, Option.some_bind]
    rw [listItemH, h]
    cases ordered
    · have hv : ({ v with lists := i :: rest } : VimDoc) = v := by rw [← h]
      exact ⟨i, _, by rw [hv]; rfl⟩
    · exact ⟨i + 1, _, rfl⟩

theorem renderMLists_ok (ls : MLists) (v : VimDoc) (out : List Char) :
    ∃ o, renderMLists v out ls = some (v, o) :=
  match ls with
  | .lnil => ⟨out, by rw [renderMLists]⟩
  | .lcons l more => by
    obtain ⟨o₁, h₁⟩ := renderMList_ok l v out
    obtain ⟨o₂, h₂⟩ := renderMLists_ok more v o₁
    exact ⟨o₂, by rw [renderMLists, h₁]; simpa using h₂⟩

end

set_option maxHeartbeats 2000000 in
/-- C8: every list traversal pushes a fresh frame, renders its items and
pops exactly that frame, restoring the renderer state (in particular the
frame stack) to its pre-invocation value; the item handler succeeds on a
non-empty stack and changes nothing below the top frame (and no other
state); and on the concrete ordered list [A [nested * x, * y], B] the
outer counter resumes at 2 after the nested list closes. -/
theorem claim_C8_list_stack (v : VimDoc) (out : List Char) (l : MList)
    (text : List Char) (ordered endOfList : Bool) :
    (∃ o, renderMList v out l = some (v, o)) ∧
    (∀ i rest, v.lists = i :: rest →
      ∃ v' o, listItemH v out text ordered endOfList = some (v', o) ∧
        v'.lists.tail = rest ∧ v'.filename = v.filename ∧ v'.title = v.title ∧
        v'.headings = v.headings) ∧
    renderMList (mkDoc "t".data 80 4 0 []) [] exList =
      some (mkDoc "t".data 80 4 0 [], "1.  A\n    *   x\n    *   y\n2.  B\n\n".data) := by
  refine ⟨renderMList_ok l v out, ?_, by decide⟩
  intro i rest h
  rw [listItemH, h]
  cases ordered
  · exact ⟨v, _, rfl, by simp [h], rfl, rfl, rfl⟩
  · exact ⟨_, _, rfl, rfl, rfl, rfl, rfl⟩

/-- C8 witness: the frame-stack statement applied at a concrete state with
a two-frame stack. -/
theorem claim_C8_list_stack_witness :
    ({ mkDoc "t".data 80 4 0 [] with lists := [3, 7] } : VimDoc).lists = 3 :: [7] ∧
    ∃ v' o, listItemH { mkDoc "t".data 80 4 0 [] with lists := [3, 7] } [] "z".data true false =
      some (v', o) ∧ v'.lists.tail = [7] ∧
      v'.filename = (mkDoc "t".data 80 4 0 []).filename ∧
      v'.title = (mkDoc "t".data 80 4 0 []).title ∧
      v'.headings = (mkDoc "t".data 80 4 0 []).headings :=
  ⟨rfl,
   (claim_C8_list_stack { mkDoc "t".data 80 4 0 [] with lists := [3, 7] } [] exList
     "z".data true false).2.1 3 [7] rfl⟩

theorem tryMatch_some_length {s : List Char} {d : Char} {r : List Char}
    (h : tryMatch s = some (d, r)) : r.length < s.length := by
  unfold tryMatch at h
  rcases hd : s.dropWhile isGoSpace with _ | ⟨d', r'⟩ <;> rw [hd] at h
  · exact absurd h (by simp)
  · have hle : (s.dropWhile isGoSpace).length ≤ s.length :=
      (List.dropWhile_suffix _).length_le
    rw [hd] at hle
    dsimp only at h
    split at h
    · cases h
      simpa using Nat.lt_of_lt_of_le (Nat.lt_succ_self _) hle
    · exact absurd h (by simp)

theorem fixupScanF_congr : ∀ (fuel fuel' : Nat) (b : Bool) (s : List Char),
    s.length ≤ fuel → s.length ≤ fuel' → fixupScanF fuel b s = fixupScanF fuel' b s := by
  intro fuel
  induction fuel with
  | zero =>
    intro fuel' b s h _
    have hs : s = [] := List.length_eq_zero.mp (Nat.le_zero.mp h)
    subst hs
    cases fuel' <;> rfl
  | succ f ih =>
    intro fuel' b s h h'
    cases s with
    | nil => cases fuel' <;> rfl
    | cons c rest =>
      cases fuel' with
      | zero => simp at h'
      | succ f' =>
        simp only [List.length_cons, Nat.add_le_add_iff_right] at h h'
        cases b with
        | false =>
          simp only [fixupScanF, if_neg (show ¬ (false = true) by simp)]
          exact congrArg _ (ih f' _ rest h h')
        | true =>
          simp only [fixupScanF, if_pos rfl]
          rcases hm : tryMatch (c :: rest) with _ | ⟨d, rest'⟩ <;> simp only [hm]
          · exact congrArg _ (ih f' _ rest h h')
          · have hlt : rest'.length < rest.length + 1 := by
              simpa using tryMatch_some_length hm
            exact congrArg _ (ih f' _ rest' (by omega) (by omega))

theorem fixupScan_nil (b : Bool) : fixupScan b [] = [] := rfl

theorem fixupScan_off (c : Char) (rest : List Char) :
    fixupScan false (c :: rest) = c :: fixupScan (c = '\n') rest := by
  rw [fixupScan, fixupScan]
  simp only [List.length_cons, fixupScanF, if_neg (show ¬ (false = true) by simp)]

theorem fixupScan_nomatch {c : Char} {rest : List Char}
    (h : tryMatch (c :: rest) = none) :
    fixupScan true (c :: rest) = c :: fixupScan (c = '\n') rest := by
  rw [fixupScan, fixupScan]
  simp only [List.length_cons, fixupScanF, if_pos rfl, h, ite_self]

theorem fixupScan_match {c : Char} {rest : List Char} {d : Char} {rest' : List Char}
    (h : tryMatch (c :: rest) = some (d, rest')) :
    fixupScan true (c :: rest) = d :: fixupScan false rest' := by
  have hlt : rest'.length < rest.length + 1 := by simpa using tryMatch_some_length h
  rw [fixupScan, fixupScan]
  simp only [List.length_cons, fixupScanF, if_pos rfl, h]
  exact congrArg _ (fixupScanF_congr rest.length rest'.length false rest' (by omega) le_rfl)

theorem tryMatch_nil : tryMatch [] = none := rfl

theorem fixupScan_match_any {s : List Char} {d : Char} {rest' : List Char}
    (h : tryMatch s = some (d, rest')) :
    fixupScan true s = d :: fixupScan false rest' := by
  cases s with
  | nil => cases h
  | cons c rest => exact fixupScan_match h

theorem tryMatch_wsdelim {l : List Char} {d : Char}
    (hd : l.dropWhile isGoSpace = [d]) (hdel : isDelim d = true)
    (τ : List Char) (hτ : τ = [] ∨ τ.head? = some '\n') :
    tryMatch (l ++ τ) = some (d, τ) := by
  have happ : (l ++ τ).dropWhile isGoSpace = d :: τ := by
    rw [List.dropWhile_append, if_neg (by rw [hd]; simp)]
    rw [hd]
    rfl
  unfold tryMatch
  rw [happ]
  exact if_pos ⟨hdel, hτ⟩

theorem tryMatch_not_line {l : List Char} (hnl : '\n' ∉ l)
    (h1 : wsOnly l = false) (h2 : wsDelim l = false) (τ : List Char) :
    tryMatch (l ++ τ) = none := by
  have hne : l.dropWhile isGoSpace ≠ [] := by
    rw [Ne, List.dropWhile_eq_nil_iff]
    intro hall
    have hT : wsOnly l = true := by
      rw [wsOnly, List.all_eq_true]
      exact hall
    rw [h1] at hT
    cases hT
  rcases he : l.dropWhile isGoSpace with _ | ⟨e, tail⟩
  · exact absurd he hne
  have happ : (l ++ τ).dropWhile isGoSpace = e :: (tail ++ τ) := by
    rw [List.dropWhile_append, if_neg (by rw [he]; simp), he]
    rfl
  unfold tryMatch
  rw [happ]
  cases tail with
  | nil =>
    have hdel : isDelim e = false := by
      rw [wsDelim, he] at h2
      exact h2
    exact if_neg (by simp [hdel])
  | cons t₀ tail' =>
    have ht₀ : t₀ ∈ l := by
      have : t₀ ∈ l.dropWhile isGoSpace := by rw [he]; simp
      exact ((List.dropWhile_suffix _).sublist).mem this
    have hne' : t₀ ≠ '\n' := fun hh => hnl (hh ▸ ht₀)
    exact if_neg (by simp [hne'])

theorem tryMatch_ws_skip {a : List Char} (h : ∀ x ∈ a, isGoSpace x = true)
    (r : List Char) : tryMatch (a ++ r) = tryMatch r := by
  have happ : (a ++ r).dropWhile isGoSpace = r.dropWhile isGoSpace := by
    rw [List.dropWhile_append,
      if_pos (by rw [List.isEmpty_iff, List.dropWhile_eq_nil_iff]; exact h)]
  unfold tryMatch
  rw [happ]

theorem fixLineGo_wsDelim {l : List Char} {d : Char}
    (hd : l.dropWhile isGoSpace = [d]) (hdel : isDelim d = true) :
    fixLineGo l = [d] := by
  rw [fixLineGo, hd]
  simp [hdel]

theorem fixLineGo_not {l : List Char} (h : wsDelim l = false) : fixLineGo l = l := by
  rw [fixLineGo]
  rw [wsDelim] at h
  rcases he : l.dropWhile isGoSpace with _ | ⟨e, tail⟩
  · rfl
  · rw [he] at h
    cases tail with
    | nil =>
      have h' : isDelim e = false := h
      simp [h']
    | cons t₀ tail' => rfl

theorem fixupScan_line_end {l : List Char} (h : '\n' ∉ l) : fixupScan false l = l := by
  induction l with
  | nil => exact fixupScan_nil false
  | cons c l' ih =>
    have hc : c ≠ '\n' := fun hh => h (hh ▸ List.mem_cons_self c l')
    rw [fixupScan_off, decide_eq_false hc, ih fun hh => h (List.mem_cons_of_mem c hh)]

theorem fixupScan_line_false {l : List Char} (h : '\n' ∉ l) (r : List Char) :
    fixupScan false (l ++ '\n' :: r) = l ++ '\n' :: fixupScan true r := by
  induction l with
  | nil =>
    rw [List.nil_append, fixupScan_off]
    simp
  | cons c l' ih =>
    have hc : c ≠ '\n' := fun hh => h (hh ▸ List.mem_cons_self c l')
    rw [List.cons_append, fixupScan_off]
    simp only [decide_eq_false hc]
    rw [ih fun hh => h (List.mem_cons_of_mem c hh)]
    rfl

theorem linesOf_no_nl {t : List Char} (h : '\n' ∉ t) : linesOf t = [t] := by
  induction t with
  | nil => rfl
  | cons c rest ih =>
    have hc : c ≠ '\n' := fun hh => h (hh ▸ List.mem_cons_self c rest)
    rw [linesOf, if_neg hc, ih fun hh => h (List.mem_cons_of_mem c hh)]

theorem linesOf_cons_nl {l : List Char} (h : '\n' ∉ l) (r : List Char) :
    linesOf (l ++ '\n' :: r) = l :: linesOf r := by
  induction l with
  | nil =>
    rw [List.nil_append, linesOf, if_pos rfl]
  | cons c l' ih =>
    have hc : c ≠ '\n' := fun hh => h (hh ▸ List.mem_cons_self c l')
    rw [List.cons_append, linesOf, if_neg hc, ih fun hh => h (List.mem_cons_of_mem c hh)]

theorem linesOf_ne_nil (t : List Char) : linesOf t ≠ [] := by
  cases t with
  | nil => simp [linesOf]
  | cons c rest =>
    rw [linesOf]
    split
    · simp
    · split <;> simp

theorem wsDelim_eq_true {l : List Char} (h : wsDelim l = true) :
    ∃ d, l.dropWhile isGoSpace = [d] ∧ isDelim d = true := by
  rw [wsDelim] at h
  rcases he : l.dropWhile isGoSpace with _ | ⟨e, tail⟩ <;> rw [he] at h
  · cases h
  · cases tail with
    | nil => exact ⟨e, rfl, h⟩
    | cons a b => cases h

theorem chainOk_cons_cons {a b : List Char} {rest : List (List Char)}
    (h : chainOk (a :: b :: rest) = true) :
    (wsOnly a = true → wsOnly b = false ∧ wsDelim b = false) ∧
      chainOk (b :: rest) = true := by
  rw [chainOk] at h
  simp only [Bool.and_eq_true, Bool.or_eq_true, Bool.not_eq_true'] at h
  obtain ⟨h1, h2⟩ := h
  refine ⟨?_, h2⟩
  intro hws
  rcases h1 with h1 | h1
  · rw [hws] at h1
    cases h1
  · exact h1

theorem unlines_cons_of_ne_nil {a : List Char} {ls : List (List Char)} (h : ls ≠ []) :
    unlines (a :: ls) = a ++ '\n' :: unlines ls := by
  cases ls with
  | nil => exact absurd rfl h
  | cons b ls' => rfl

theorem fixupScan_none_line {t : List Char} (hm : tryMatch t = none) (hnl : '\n' ∉ t) :
    fixupScan true t = t := by
  cases t with
  | nil => exact fixupScan_nil true
  | cons c rest =>
    have hc : c ≠ '\n' := fun hh => hnl (hh ▸ List.mem_cons_self c rest)
    rw [fixupScan_nomatch hm, decide_eq_false hc,
      fixupScan_line_end fun hh => hnl (List.mem_cons_of_mem c hh)]

theorem linesOf_head_decomp (r : List Char) :
    ∃ l₂ ls, linesOf r = l₂ :: ls ∧ '\n' ∉ l₂ ∧
      (r = l₂ ∨ ∃ r', r = l₂ ++ '\n' :: r') := by
  have hnl : '\n' ∉ r.takeWhile fun x => decide (x ≠ '\n') := by
    intro hmem
    have := List.mem_takeWhile_imp hmem
    simp at this
  have hsplit : (r.takeWhile fun x => decide (x ≠ '\n')) ++
      (r.dropWhile fun x => decide (x ≠ '\n')) = r :=
    List.takeWhile_append_dropWhile _ r
  rcases hd : r.dropWhile fun x => decide (x ≠ '\n') with _ | ⟨c₀, r'⟩
  · rw [hd, List.append_nil] at hsplit
    refine ⟨r.takeWhile fun x => decide (x ≠ '\n'), [], ?_, hnl, Or.inl hsplit.symm⟩
    rw [hsplit]
    exact linesOf_no_nl (hsplit ▸ hnl)
  · have h9 := List.head?_dropWhile_not (fun x => decide (x ≠ '\n')) r
    rw [hd] at h9
    have hc₀ : c₀ = '\n' := by simpa using h9
    subst hc₀
    rw [hd] at hsplit
    refine ⟨r.takeWhile fun x => decide (x ≠ '\n'), linesOf r', ?_, hnl,
      Or.inr ⟨r', hsplit.symm⟩⟩
    conv_lhs => rw [← hsplit]
    exact linesOf_cons_nl hnl r'

theorem fixup_lines_of_chainOk (t : List Char) (h : chainOk (linesOf t) = true) :
    fixupScan true t = unlines ((linesOf t).map fixLineGo) := by
  have hnl : '\n' ∉ t.takeWhile fun x => decide (x ≠ '\n') := by
    intro hmem
    have := List.mem_takeWhile_imp hmem
    simp at this
  have hsplit : (t.takeWhile fun x => decide (x ≠ '\n')) ++
      (t.dropWhile fun x => decide (x ≠ '\n')) = t :=
    List.takeWhile_append_dropWhile _ t
  rcases hd : t.dropWhile fun x => decide (x ≠ '\n') with _ | ⟨c₀, r⟩
  · -- t is a single line
    rw [hd, List.append_nil] at hsplit
    have hnlt : '\n' ∉ t := hsplit ▸ hnl
    rw [linesOf_no_nl hnlt]
    show fixupScan true t = fixLineGo t
    cases hwd : wsDelim t with
    | true =>
      obtain ⟨d, hdd, hdel⟩ := wsDelim_eq_true hwd
      have hm : tryMatch t = some (d, []) := by
        have := tryMatch_wsdelim hdd hdel [] (Or.inl rfl)
        rwa [List.append_nil] at this
      rw [fixupScan_match_any hm, fixupScan_nil, fixLineGo_wsDelim hdd hdel]
    | false =>
      rw [fixLineGo_not hwd]
      cases hwo : wsOnly t with
      | true =>
        have hm : tryMatch t = none := by
          have hdr : t.dropWhile isGoSpace = [] := by
            rw [List.dropWhile_eq_nil_iff]
            rw [wsOnly, List.all_eq_true] at hwo
            exact hwo
          unfold tryMatch
          rw [hdr]
        exact fixupScan_none_line hm hnlt
      | false =>
        have hm : tryMatch t = none := by
          have := tryMatch_not_line hnlt hwo hwd []
          rwa [List.append_nil] at this
        exact fixupScan_none_line hm hnlt
  · -- t = l ++ '\n' :: r
    have h9 := List.head?_dropWhile_not (fun x => decide (x ≠ '\n')) t
    rw [hd] at h9
    have hc₀ : c₀ = '\n' := by simpa using h9
    subst hc₀
    rw [hd] at hsplit
    rw [← hsplit] at h ⊢
    rw [linesOf_cons_nl hnl] at h ⊢
    obtain ⟨l₂, ls, hlr, hnl₂, hdec⟩ := linesOf_head_decomp r
    rw [hlr] at h
    obtain ⟨hcond, hrest₂⟩ := chainOk_cons_cons h
    have hrest : chainOk (linesOf r) = true := by rw [hlr]; exact hrest₂
    have hlen : r.length < t.length := by
      have := congrArg List.length hsplit
      simp at this
      omega
    have hrec := fixup_lines_of_chainOk r hrest
    cases hwd : wsDelim (t.takeWhile fun x => decide (x ≠ '\n')) with
    | true =>
      obtain ⟨d, hdd, hdel⟩ := wsDelim_eq_true hwd
      have hm := tryMatch_wsdelim hdd hdel ('\n' :: r) (Or.inr rfl)
      rw [fixupScan_match_any hm, fixupScan_off]
      simp only [eq_self_iff_true, decide_True]
      rw [hrec, List.map_cons, unlines_cons_of_ne_nil (by simp [hlr]),
        fixLineGo_wsDelim hdd hdel]
      rfl
    | false =>
      rw [List.map_cons,
        unlines_cons_of_ne_nil (by simp [hlr]),
        fixLineGo_not hwd]
      cases hwo : wsOnly (t.takeWhile fun x => decide (x ≠ '\n')) with
      | false =>
        have hm := tryMatch_not_line hnl hwo hwd ('\n' :: r)
        rcases hl : t.takeWhile fun x => decide (x ≠ '\n') with _ | ⟨cl, l'⟩
        · rw [hl, wsOnly] at hwo
          cases hwo
        · rw [hl] at hm hnl
          have hcl : cl ≠ '\n' := fun hh => hnl (hh ▸ List.mem_cons_self _ _)
          rw [List.cons_append] at hm ⊢
          rw [fixupScan_nomatch hm, decide_eq_false hcl,
            fixupScan_line_false (fun hh => hnl (List.mem_cons_of_mem cl hh)) r,
            hrec]
          rfl
      | true =>
        obtain ⟨hwo₂, hwd₂⟩ := hcond (by
          rcases hdec with hdec | ⟨r', hdec⟩ <;> exact hwo)
        have hskip : tryMatch ((t.takeWhile fun x => decide (x ≠ '\n')) ++ '\n' :: r) =
            tryMatch r := by
          have hall : ∀ x ∈ (t.takeWhile fun x => decide (x ≠ '\n')) ++ ['\n'],
              isGoSpace x = true := by
            intro x hx
            rcases List.mem_append.mp hx with hx | hx
            · rw [wsOnly, List.all_eq_true] at hwo
              exact hwo x hx
            · simp at hx
              subst hx
              rfl
          have := tryMatch_ws_skip hall r
          rwa [List.append_assoc] at this
        have hmr : tryMatch r = none := by
          rcases hdec with hdec | ⟨r', hdec⟩
          · rw [hdec]
            have := tryMatch_not_line hnl₂ hwo₂ hwd₂ []
            rwa [List.append_nil] at this
          · rw [hdec]
            exact tryMatch_not_line hnl₂ hwo₂ hwd₂ ('\n' :: r')
        have hm := hskip.trans hmr
        rcases hl : t.takeWhile fun x => decide (x ≠ '\n') with _ | ⟨cl, l'⟩
        · rw [hl] at hm
          rw [List.nil_append] at hm ⊢
          rw [fixupScan_nomatch hm]
          simp only [eq_self_iff_true, decide_True]
          rw [hrec]
          rfl
        · rw [hl] at hm hnl
          have hcl : cl ≠ '\n' := fun hh => hnl (hh ▸ List.mem_cons_self _ _)
          rw [List.cons_append] at hm ⊢
          rw [fixupScan_nomatch hm, decide_eq_false hcl,
            fixupScan_line_false (fun hh => hnl (List.mem_cons_of_mem cl hh)) r,
            hrec]
          rfl
termination_by t.length

/-- C7 counterexample: a line whose only non-whitespace content is a single
delimiter but which carries trailing whitespace (" < ") is not rewritten
(the delimiter must end its line), and a whitespace-only line directly
before a fence line is absorbed into the rewrite rather than left
unchanged ("a\n\n>\nx" becomes "a\n>\nx") — both contradict the claim's
per-line description. -/
theorem claim_C7_counterexample :
    fixupCodeTags " < ".data ≠ fixupClaim " < ".data ∧
    fixupCodeTags "a\n\n>\nx".data ≠ fixupClaim "a\n\n>\nx".data :=
  ⟨by decide, by decide⟩

/-- C7 (amended): provided no whitespace-only (or empty) line is
immediately followed by another whitespace-only line or by a
whitespace-then-delimiter line, the cleanup pass rewrites exactly those
lines that consist of optional whitespace followed by a single fence
delimiter at end of line to the bare delimiter, and leaves every other
line unchanged.  (Without that proviso, whitespace-only lines directly
preceding a fence line are absorbed into the rewrite, and a fence line
with trailing whitespace is never rewritten.) -/
theorem claim_C7_fixup_cleanup (t : List Char) (h : chainOk (linesOf t) = true) :
    fixupCodeTags t = unlines ((linesOf t).map fixLineGo) :=
  fixup_lines_of_chainOk t h

/-- C7 witness: the amended cleanup statement applied to a concrete text
with an indented fence line. -/
theorem claim_C7_fixup_cleanup_witness :
    chainOk (linesOf "a\n  <\nb".data) = true ∧
    fixupCodeTags "a\n  <\nb".data =
      unlines ((linesOf "a\n  <\nb".data).map fixLineGo) :=
  ⟨by decide, claim_C7_fixup_cleanup "a\n  <\nb".data (by decide)⟩

theorem tryMatch_append_none {s b : List Char} (hs : tryMatch s = none)
    (hb : tryMatch b = none) : tryMatch (s ++ b) = none := by
  rcases he : s.dropWhile isGoSpace with _ | ⟨e, tail⟩
  · have hall : ∀ x ∈ s, isGoSpace x = true := List.dropWhile_eq_nil_iff.mp he
    rw [tryMatch_ws_skip hall b]
    exact hb
  · have happ : (s ++ b).dropWhile isGoSpace = e :: (tail ++ b) := by
      rw [List.dropWhile_append, if_neg (by rw [he]; simp), he]
      rfl
    by_cases hcond : isDelim e = true ∧ (tail = [] ∨ tail.head? = some '\n')
    · exfalso
      have hsome : tryMatch s = some (e, tail) := by
        unfold tryMatch
        rw [he]
        exact if_pos hcond
      rw [hs] at hsome
      cases hsome
    · unfold tryMatch
      rw [happ]
      apply if_neg
      intro hcomb
      apply hcond
      refine ⟨hcomb.1, ?_⟩
      cases tail with
      | nil => exact Or.inl rfl
      | cons t₀ tl =>
        rcases hcomb.2 with h2 | h2
        · cases h2
        · simp at h2
          exact Or.inr (by simp [h2])

theorem tryMatch_append_some {s : List Char} {d : Char} {r : List Char}
    (h : tryMatch s = some (d, r)) (hs : s.getLast? = some '\n') (b : List Char) :
    tryMatch (s ++ b) = some (d, r ++ b) ∧ r ≠ [] ∧ r.getLast? = some '\n' := by
  rcases he : s.dropWhile isGoSpace with _ | ⟨e, tail⟩
  · exfalso
    have hnone : tryMatch s = none := by
      unfold tryMatch
      rw [he]
    rw [h] at hnone
    cases hnone
  · by_cases hcond : isDelim e = true ∧ (tail = [] ∨ tail.head? = some '\n')
    · have hsome : tryMatch s = some (e, tail) := by
        unfold tryMatch
        rw [he]
        exact if_pos hcond
      rw [h] at hsome
      injection hsome with hpair
      injection hpair with h1 h2
      subst h1
      subst h2
      have hsdec : s.takeWhile isGoSpace ++ (d :: r) = s := by
        conv_rhs => rw [← List.takeWhile_append_dropWhile isGoSpace s]
        rw [he]
      have hrne : r ≠ [] := by
        intro hr
        subst hr
        have hlast : s.getLast? = some d := by
          rw [← hsdec]
          exact List.getLast?_concat _
        rw [hs] at hlast
        have hd : d = '\n' := by
          have := Option.some.inj hlast
          exact this.symm
        subst hd
        rw [show isDelim '\n' = false by decide] at hcond
        exact Bool.noConfusion hcond.1
      obtain ⟨a, r₂, rfl⟩ : ∃ a r₂, r = a :: r₂ := by
        cases r with
        | nil => exact absurd rfl hrne
        | cons a r₂ => exact ⟨a, r₂, rfl⟩
      have hrlast : (a :: r₂).getLast? = some '\n' := by
        have h1 : s.getLast? = (d :: a :: r₂).getLast? := by
          conv_lhs => rw [← hsdec]
          rw [List.getLast?_append]
          rcases ho : (d :: a :: r₂).getLast? with _ | z
          · rw [List.getLast?_eq_none] at ho
            cases ho
          · rfl
        rw [hs, List.getLast?_cons_cons] at h1
        exact h1.symm
      have ha : a = '\n' := by
        rcases hcond.2 with h2 | h2
        · cases h2
        · simpa using h2
      have happ : (s ++ b).dropWhile isGoSpace = d :: ((a :: r₂) ++ b) := by
        rw [List.dropWhile_append, if_neg (by rw [he]; simp), he]
        rfl
      refine ⟨?_, hrne, hrlast⟩
      unfold tryMatch
      rw [happ]
      exact if_pos ⟨hcond.1, Or.inr (by simp [ha])⟩
    · exfalso
      have hnone : tryMatch s = none := by
        unfold tryMatch
        rw [he]
        exact if_neg hcond
      rw [h] at hnone
      cases hnone

theorem fixupScan_append (a : List Char) (flag : Bool) (b : List Char)
    (ha : a.getLast? = some '\n') (hb : tryMatch b = none) :
    fixupScan flag (a ++ b) = fixupScan flag a ++ fixupScan true b := by
  match a, flag with
  | [], _ => simp at ha
  | c :: a', false =>
    rw [List.cons_append, fixupScan_off, fixupScan_off]
    by_cases hnil : a' = []
    · subst hnil
      have hc : c = '\n' := by simpa using ha
      subst hc
      simp [fixupScan_nil]
    · have ha' : a'.getLast? = some '\n' := by
        obtain ⟨c₂, a₂, rfl⟩ : ∃ c₂ a₂, a' = c₂ :: a₂ := by
          cases a' with
          | nil => exact absurd rfl hnil
          | cons c₂ a₂ => exact ⟨c₂, a₂, rfl⟩
        rwa [List.getLast?_cons_cons] at ha
      rw [fixupScan_append a' _ b ha' hb, List.cons_append]
  | c :: a', true =>
    rcases hm : tryMatch (c :: a') with _ | ⟨d, r⟩
    · have hcomb : tryMatch (c :: (a' ++ b)) = none := by
        have := tryMatch_append_none hm hb
        rwa [List.cons_append] at this
      rw [List.cons_append, fixupScan_nomatch hcomb, fixupScan_nomatch hm]
      by_cases hnil : a' = []
      · subst hnil
        have hc : c = '\n' := by simpa using ha
        subst hc
        simp [fixupScan_nil]
      · have ha' : a'.getLast? = some '\n' := by
          obtain ⟨c₂, a₂, rfl⟩ : ∃ c₂ a₂, a' = c₂ :: a₂ := by
            cases a' with
            | nil => exact absurd rfl hnil
            | cons c₂ a₂ => exact ⟨c₂, a₂, rfl⟩
          rwa [List.getLast?_cons_cons] at ha
        rw [fixupScan_append a' _ b ha' hb, List.cons_append]
    · obtain ⟨hcomb, hrne, hrlast⟩ := tryMatch_append_some hm ha b
      rw [List.cons_append] at hcomb
      have hrlen : r.length < (c :: a').length := tryMatch_some_length hm
      rw [List.cons_append, fixupScan_match_any hcomb, fixupScan_match_any hm,
        fixupScan_append r false b hrlast hb, List.cons_append]
termination_by a.length
decreasing_by
  · simp
  · simp
  · exact hrlen

theorem writeSplitText_acc (v : VimDoc) (acc left right repeat_ : List Char) (trim : Nat) :
    writeSplitText v acc left right repeat_ trim =
      acc ++ writeSplitText v [] left right repeat_ trim := by
  simp [writeSplitText]

theorem foldl_split_acc (v : VimDoc) (g₁ g₂ : Nat × Heading → List Char) :
    ∀ (l : List (Nat × Heading)) (X : List Char),
      l.foldl (fun acc p => writeSplitText v acc (g₁ p) (g₂ p) ['.'] 2) X =
        X ++ l.foldl (fun acc p => writeSplitText v acc (g₁ p) (g₂ p) ['.'] 2) [] := by
  intro l
  induction l with
  | nil => intro X; simp
  | cons p l ih =>
    intro X
    rw [List.foldl_cons, List.foldl_cons, ih (writeSplitText v X (g₁ p) (g₂ p) ['.'] 2),
      ih (writeSplitText v [] (g₁ p) (g₂ p) ['.'] 2),
      writeSplitText_acc, List.append_assoc]

theorem writeToc_acc (v : VimDoc) (X : List Char) :
    writeToc v X = X ++ writeToc v [] := by
  unfold writeToc
  exact foldl_split_acc v
    (fun p => List.replicate ((p.2.level - 1) * v.tabs) ' ' ++
      buildChapters v p.1 ++ [' '] ++ p.2.text)
    (fun p => ['|'] ++ buildHelpTag v p.2.text ++ ['|'])
    v.headings.enum X

theorem tocSection_getLast (v : VimDoc) : (tocSection v).getLast? = some '\n' := by
  simp only [tocSection]
  exact List.getLast?_concat _

theorem tryMatch_cons_ws {c : Char} (hc : isGoSpace c = true) (s : List Char) :
    tryMatch (c :: s) = tryMatch s := by
  unfold tryMatch
  rw [List.dropWhile_cons_of_pos hc]

theorem tryMatch_head_hard {e : Char} (h1 : isGoSpace e = false)
    (h2 : isDelim e = false) (s : List Char) : tryMatch (e :: s) = none := by
  unfold tryMatch
  rw [List.dropWhile_cons_of_neg (by simp [h1])]
  exact if_neg (by simp [h2])

theorem tocSection_shape (v : VimDoc) :
    ∃ z, tocSection v = stringsRepeat "=".data v.cols ++ '\n' :: 'C' :: z := by
  apply Exists.intro
  simp only [tocSection, writeRule, writeSplitText, List.nil_append]
  rw [writeToc_acc]
  rw [show bytesToUpper "Contents".data = 'C' :: "ONTENTS".data from by decide]
  simp only [List.append_assoc, List.singleton_append, List.cons_append]
  rfl

theorem tryMatch_tocSection (v : VimDoc) (x : List Char) :
    tryMatch (tocSection v ++ x) = none := by
  obtain ⟨z, hz⟩ := tocSection_shape v
  rw [hz]
  cases hc : v.cols with
  | zero =>
    simp only [stringsRepeat, List.replicate, List.flatten_nil, List.nil_append]
    rw [List.cons_append, tryMatch_cons_ws (by decide), List.cons_append,
      tryMatch_head_hard (by decide) (by decide)]
  | succ n =>
    have hrep : stringsRepeat "=".data (n + 1) = '=' :: stringsRepeat "=".data n := by
      simp [stringsRepeat, List.replicate_succ]
    rw [hrep, List.cons_append, List.cons_append,
      tryMatch_head_hard (by decide) (by decide)]

/-- C4 counterexample: for a document whose body begins with a code block,
the cleanup regex absorbs different blank lines in the two runs (the
prologue's blank line when the TOC is suppressed, the section's trailing
blank line when it is enabled).  The two outputs are computed explicitly;
they already differ within the first three bytes, so no block whatsoever
is inserted at the recorded offset 3, and in particular neither the raw
nor the cleaned Contents section is; the actual difference is the one-byte
rotation `'\n' ::` section-without-final-newline, at offset 2. -/
theorem claim_C4_counterexample :
    documentFooter c4W c4WBuf =
      "f\n\n==\nCONTENTS *f-contents*\n\n1. A.|f-a|\n>\n    x\n<\n\n==\nA *f-a*\n\n".data ∧
    documentFooter { c4W with flags := 1 } c4WBuf =
      "f\n>\n    x\n<\n\n==\nA *f-a*\n\n".data ∧
    (documentFooter c4W c4WBuf).take c4W.tocPos.toNat ≠
      (documentFooter { c4W with flags := 1 } c4WBuf).take c4W.tocPos.toNat ∧
    documentFooter c4W c4WBuf ≠
      (documentFooter { c4W with flags := 1 } c4WBuf).take c4W.tocPos.toNat ++
        tocSection c4W ++
        (documentFooter { c4W with flags := 1 } c4WBuf).drop c4W.tocPos.toNat ∧
    documentFooter c4W c4WBuf ≠
      (documentFooter { c4W with flags := 1 } c4WBuf).take c4W.tocPos.toNat ++
        fixupCodeTags (tocSection c4W) ++
        (documentFooter { c4W with flags := 1 } c4WBuf).drop c4W.tocPos.toNat ∧
    documentFooter c4W c4WBuf =
      (documentFooter { c4W with flags := 1 } c4WBuf).take 2 ++
        '\n' :: (tocSection c4W).dropLast ++
        (documentFooter { c4W with flags := 1 } c4WBuf).drop 2 :=
  ⟨by decide, by decide, by decide, by decide, by decide, by decide⟩

/-- C4 (amended): with an insertion offset recorded at a line boundary
(the invariant `DocumentHeader` establishes) and a body tail on which the
cleanup regex has no match — it does not begin with a whitespace run
reaching a bare fence delimiter at end of line — the footer with the TOC
enabled produces exactly the cleaned prefix, the cleaned Contents section,
and the cleaned suffix, while the footer with the TOC suppressed produces
exactly the cleaned prefix and suffix — so the two outputs differ only by
the inserted Contents section; toggling the suppression bit changes no
help tag; and when no offset was recorded the section is omitted in both
settings.  (Without the body-tail proviso the cleanup absorbs different
blank lines in the two runs, as the counterexample shows.) -/
theorem claim_C4_toc_toggle (v : VimDoc) (buf : List Char) (fOn : Nat) :
    (¬ hasFlag v flagNoToc → hasFlag { v with flags := fOn } flagNoToc →
      0 < v.tocPos → v.tocPos.toNat ≤ buf.length →
      (buf.take v.tocPos.toNat).getLast? = some '\n' →
      tryMatch (buf.drop v.tocPos.toNat) = none →
      documentFooter v buf =
        fixupCodeTags (buf.take v.tocPos.toNat) ++ fixupCodeTags (tocSection v) ++
          fixupCodeTags (buf.drop v.tocPos.toNat) ∧
      documentFooter { v with flags := fOn } buf =
        fixupCodeTags (buf.take v.tocPos.toNat) ++ fixupCodeTags (buf.drop v.tocPos.toNat)) ∧
    (v.flags &&& flagPascal = fOn &&& flagPascal →
      ∀ text, buildHelpTag { v with flags := fOn } text = buildHelpTag v text) ∧
    (v.tocPos ≤ 0 →
      documentFooter v buf = fixupCodeTags buf ∧
      documentFooter { v with flags := fOn } buf = fixupCodeTags buf) := by
  refine ⟨?_, ?_, ?_⟩
  · intro hOff hOn htoc hlen hnl hsuf
    constructor
    · rw [documentFooter, if_pos ⟨htoc, hOff⟩, List.append_assoc, fixupCodeTags,
        fixupScan_append (buf.take v.tocPos.toNat) true
          (tocSection v ++ buf.drop v.tocPos.toNat) hnl (tryMatch_tocSection v _),
        fixupScan_append (tocSection v) true (buf.drop v.tocPos.toNat)
          (tocSection_getLast v) hsuf]
      rw [fixupCodeTags, fixupCodeTags, fixupCodeTags, List.append_assoc]
    · rw [documentFooter, if_neg (by
        rintro ⟨-, hcontra⟩
        exact hcontra hOn)]
      conv_lhs => rw [show buf = buf.take v.tocPos.toNat ++ buf.drop v.tocPos.toNat from
        (List.take_append_drop _ _).symm]
      rw [fixupCodeTags, fixupScan_append (buf.take v.tocPos.toNat) true
        (buf.drop v.tocPos.toNat) hnl hsuf]
      rfl
  · intro hp text
    simp only [buildHelpTag, hasFlag]
    by_cases hb : v.flags &&& flagPascal ≠ 0
    · have hb' : fOn &&& flagPascal ≠ 0 := by rw [← hp]; exact hb
      rw [if_neg (by simpa using hb'), if_neg (by simpa using hb)]
    · have hb' : ¬ (fOn &&& flagPascal ≠ 0) := by rw [← hp]; exact hb
      rw [if_pos (by simpa using hb'), if_pos (by simpa using hb)]
  · intro hneg
    constructor
    · rw [documentFooter, if_neg (by rintro ⟨hcontra, -⟩; omega)]
    · rw [documentFooter, if_neg (by
        rintro ⟨hcontra, -⟩
        rw [show ({ v with flags := fOn } : VimDoc).tocPos = v.tocPos from rfl] at hcontra
        omega)]

/-- C4 witness: the toggle statement applied at a concrete session, buffer
and flag word, each hypothesis discharged by computation. -/
theorem claim_C4_toc_toggle_witness :
    (¬ hasFlag c4V flagNoToc ∧ hasFlag { c4V with flags := 1 } flagNoToc ∧
      0 < c4V.tocPos ∧ c4V.tocPos.toNat ≤ c4Buf.length ∧
      (c4Buf.take c4V.tocPos.toNat).getLast? = some '\n' ∧
      tryMatch (c4Buf.drop c4V.tocPos.toNat) = none ∧
      documentFooter c4V c4Buf =
        fixupCodeTags (c4Buf.take c4V.tocPos.toNat) ++ fixupCodeTags (tocSection c4V) ++
          fixupCodeTags (c4Buf.drop c4V.tocPos.toNat) ∧
      documentFooter { c4V with flags := 1 } c4Buf =
        fixupCodeTags (c4Buf.take c4V.tocPos.toNat) ++
          fixupCodeTags (c4Buf.drop c4V.tocPos.toNat)) ∧
    (c4V.flags &&& flagPascal = 1 &&& flagPascal ∧
      buildHelpTag { c4V with flags := 1 } "x".data = buildHelpTag c4V "x".data) ∧
    (({ c4V with tocPos := -1 } : VimDoc).tocPos ≤ 0 ∧
      documentFooter { c4V with tocPos := -1 } c4Buf = fixupCodeTags c4Buf) :=
  ⟨⟨by decide, by decide, by decide, by decide, by decide, by decide,
    ((claim_C4_toc_toggle c4V c4Buf 1).1 (by decide) (by decide) (by decide)
      (by decide) (by decide) (by decide)).1,
    ((claim_C4_toc_toggle c4V c4Buf 1).1 (by decide) (by decide) (by decide)
      (by decide) (by decide) (by decide)).2⟩,
   ⟨by decide, (claim_C4_toc_toggle c4V c4Buf 1).2.1 (by decide) "x".data⟩,
   ⟨by decide, ((claim_C4_toc_toggle { c4V with tocPos := -1 } c4Buf 1).2.2 (by decide)).1⟩⟩

end MdToVim
